import Mathlib

/-!
Verification development for the infusion path calculator.

The engine (`infusion/__init__.py`) is shallowly embedded below:

* `Quality`, `Item`     — the item data model (integer light, three-tier quality);
* `Item.parse`          — `Item.__init__` on a string token, with Python's `int()`
                          parsing modelled by `pyIntList` and the raised error
                          messages modelled by `parseMsg`;
* `Path.infuse`         — a single infusion step, including an exact model of the
                          IEEE-754 binary64 evaluation of `round(diff * perc)`
                          (`pyRoundMul`, built from `roundDouble` and `rneDiv`);
* `Path.ofSteps`        — `Path.__init__`: cost and left fold of `Path.infuse`;
* `Paths.uniquify`, `Paths.permutate`, `Paths.build`, `Paths.make`
                        — pruning, chain enumeration and the best-light /
                          least-cost selection scan of `Paths.__init__`.

Python integers are modelled as `ℤ`. CPython details that are modelled explicitly:
`set()` deduplication of tokens, `sorted()` as a stable ascending sort,
`IndexError` on indexing into an empty token, float literals `0.7` / `0.8` as
their nearest binary64 values, and `round()` as round-half-to-even.
-/

namespace Infusion

/-- Item quality enum (`class Quality`: rare, legendary, exotic). The source uses
integer constants 1/2/3 compared only with `is`; a closed enumeration is faithful. -/
inductive Quality where
  | rare
  | legendary
  | exotic
deriving DecidableEq

/-- Item wrapper storing light/quality properties (`class Item`). -/
structure Item where
  light : ℤ
  quality : Quality
deriving DecidableEq

/-- The failure modes of the engine: the two raised `Exception`s of the source
(parse failure in `Item.__init__`, empty candidate list in `Paths.uniquify`),
plus the `IndexError` that `item[0]` raises on an empty token. -/
inductive Err where
  | parseError (msg : String)
  | domainError (msg : String)
  | indexError
deriving DecidableEq

/-! ### Python `int()` parsing -/

/-- ASCII whitespace stripped by Python's `int()` around a numeric literal.
(CPython also strips some Unicode spaces; no claim exercises those.) -/
def isPySpace (c : Char) : Bool :=
  c = ' ' || c = '\t' || c = '\n' || c = '\r' || c = '\x0b' || c = '\x0c'

/-- Value of an ASCII decimal digit. (CPython's `int()` also accepts non-ASCII
decimal digits; no claim exercises those.) -/
def digitVal (c : Char) : Option ℕ :=
  if '0' ≤ c ∧ c ≤ '9' then some (c.toNat - '0'.toNat) else none

/-- Digits after the first one: single underscores are allowed between digits. -/
def parseDigitsAux : ℕ → List Char → Option ℕ
  | acc, [] => some acc
  | acc, '_' :: c :: rest => (digitVal c).bind fun d => parseDigitsAux (10 * acc + d) rest
  | acc, c :: rest => (digitVal c).bind fun d => parseDigitsAux (10 * acc + d) rest

/-- An unsigned decimal literal: at least one digit, underscores only between digits. -/
def parseDigitsU : List Char → Option ℕ
  | [] => none
  | c :: rest => (digitVal c).bind fun d => parseDigitsAux d rest

/-- Python `int(str)`: strip whitespace, optional single sign, decimal digits. -/
def pyIntList (cs : List Char) : Option ℤ :=
  let stripped := ((cs.dropWhile isPySpace).reverse.dropWhile isPySpace).reverse
  match stripped with
  | [] => none
  | c :: rest =>
    if c = '+' then Option.map (fun n : ℕ => (n : ℤ)) (parseDigitsU rest)
    else if c = '-' then Option.map (fun n : ℕ => -(n : ℤ)) (parseDigitsU rest)
    else Option.map (fun n : ℕ => (n : ℤ)) (parseDigitsU (c :: rest))

/-! ### The `ValueError` message raised by `int()` and the message built by `Item.__init__` -/

/-- Single quote, double quote, backslash (kept out of literals for hygiene). -/
def sqc : Char := Char.ofNat 39

def dqc : Char := Char.ofNat 34

def bsc : Char := Char.ofNat 92

def hexDigitChar (n : ℕ) : Char :=
  if n < 10 then Char.ofNat (48 + n) else Char.ofNat (87 + n)

/-- One character of Python `repr()` of a string, for the chosen quote character.
(Printability classification of non-ASCII characters is not modelled; no claim
exercises it.) -/
def pyReprChar (quote c : Char) : List Char :=
  if c = bsc || c = quote then [bsc, c]
  else if c = '\t' then [bsc, 't']
  else if c = '\n' then [bsc, 'n']
  else if c = '\r' then [bsc, 'r']
  else if c.toNat < 32 || c.toNat = 127 then
    [bsc, 'x', hexDigitChar (c.toNat / 16), hexDigitChar (c.toNat % 16)]
  else [c]

/-- Python `repr()` of a string: single-quoted, unless the string contains a
single quote and no double quote. -/
def pyRepr (cs : List Char) : List Char :=
  let quote := if sqc ∈ cs ∧ dqc ∉ cs then dqc else sqc
  [quote] ++ cs.flatMap (pyReprChar quote) ++ [quote]

/-- `str(e).split()[-1]`: the last maximal whitespace-free run of a string. -/
def lastWord (cs : List Char) : List Char :=
  ((cs.reverse.dropWhile isPySpace).takeWhile (fun c => !isPySpace c)).reverse

/-- The message of the `ValueError` CPython raises for `int(s)` on a bad literal. -/
def intErrMsg (cs : List Char) : List Char :=
  "invalid literal for int() with base 10: ".toList ++ pyRepr cs

/-- The message `Item.__init__` builds:
`"Invalid item {}; items must be integers.".format(str(e).split()[-1])`. -/
def parseMsg (cs : List Char) : String :=
  String.mk ("Invalid item ".toList ++ lastWord (intErrMsg cs) ++ "; items must be integers.".toList)

/-- The substring `Item.__init__` hands to `int()`: `item[1:]` when the token has
a `+`/`-` prefix (quality not legendary), else the whole token. -/
def numericPortion (tok : String) : List Char :=
  match tok.toList with
  | [] => []
  | c :: rest => if c = '+' || c = '-' then rest else c :: rest

/-- `Item.__init__` on a string token. An empty token raises `IndexError` at
`item[0]`; a bad numeric portion raises the formatted parse exception. -/
def Item.parse (tok : String) : Except Err Item :=
  match tok.toList with
  | [] => Except.error Err.indexError
  | c :: _ =>
    let quality : Quality :=
      if c = '+' then Quality.exotic
      else if c = '-' then Quality.rare
      else Quality.legendary
    match pyIntList (numericPortion tok) with
    | some n => Except.ok ⟨n, quality⟩
    | none => Except.error (Err.parseError (parseMsg (numericPortion tok)))

/-! ### IEEE-754 binary64 model for `round(diff * perc)`

`diff * perc` multiplies a Python int by a float: the int is converted to the
nearest double, multiplied by the double value of the literal (`0.7` or `0.8`)
with one IEEE rounding, and `round()` then rounds the double to the nearest
integer with ties to even.  All values are dyadic rationals `m * 2^e`, modelled
exactly; subnormal/overflow ranges (below `2^-1022`, above `2^1023`) are not
modelled — every reachable value here is far inside the normal range. -/

/-- Fuel-based binary logarithm (kernel-reducible, unlike `Nat.log2`). -/
def log2Aux : ℕ → ℕ → ℕ
  | 0, _ => 0
  | fuel+1, n => if 2 ≤ n then log2Aux fuel (n / 2) + 1 else 0

/-- `intLog2 n` is the position of the highest set bit of `n` (for `1 ≤ n`). -/
def intLog2 (n : ℕ) : ℕ := log2Aux n n

/-- Round-half-to-even of `n / 2^j`: the IEEE-754 and Python `round()` tie rule. -/
def rneDiv (n : ℤ) (j : ℕ) : ℤ :=
  match j with
  | 0 => n
  | jj+1 =>
    let d : ℤ := 2 ^ (jj+1)
    let q := n / d
    let r := n % d
    if r < 2 ^ jj then q
    else if 2 ^ jj < r then q + 1
    else if q % 2 = 0 then q else q + 1

/-- A dyadic rational `m * 2^e` — the exact value of a binary64 double. -/
structure Dy where
  m : ℤ
  e : ℤ
deriving DecidableEq

/-- Exact rational value of a dyadic (used only in statements and proofs). -/
def Dy.val (x : Dy) : ℚ := (x.m : ℚ) * (2 : ℚ) ^ x.e

/-- Round a positive dyadic value to the nearest binary64 (ties to even): keep
at most 53 significant bits.  Non-positive mantissas are passed through; every
reachable use in this program has `1 ≤ m`. -/
def roundDouble (x : Dy) : Dy :=
  if x.m ≤ 0 then x
  else
    let b := intLog2 x.m.toNat
    if b ≤ 52 then x
    else ⟨rneDiv x.m (b - 52), x.e + (b - 52 : ℕ)⟩

/-- IEEE-754 multiplication of two doubles: the exact product, rounded once. -/
def mulDouble (x y : Dy) : Dy := roundDouble ⟨x.m * y.m, x.e + y.e⟩

/-- Python `round()` on a double: nearest integer, ties to even. -/
def pyRound (x : Dy) : ℤ :=
  if 0 ≤ x.e then x.m * 2 ^ x.e.toNat else rneDiv x.m (-x.e).toNat

/-- Mantissa of `fl(0.7) = 3152519739159347 / 2^52`, the binary64 nearest 7/10. -/
def fl07m : ℤ := 3152519739159347

/-- Mantissa of `fl(0.8) = 3602879701896397 / 2^52`, the binary64 nearest 4/5. -/
def fl08m : ℤ := 3602879701896397

/-- `round(diff * perc)` as CPython evaluates it, where `perc = percM / 2^52`. -/
def pyRoundMul (diff percM : ℤ) : ℤ :=
  pyRound (mulDouble (roundDouble ⟨diff, 0⟩) ⟨percM, -52⟩)

/-! ### A single infusion step and `Path` -/

/-- `Path.infuse`: infuse `base` with `target`. Within the close range the target
itself is returned; otherwise a penalty percentage of the gap is applied. -/
def Path.infuse (base target : Item) : Item :=
  let diff := target.light - base.light
  let comp : ℤ := 6 - (if base.quality = Quality.exotic then 2 else 0)
                    + (if target.quality = Quality.exotic then 1 else 0)
  if diff ≤ comp then target
  else ⟨base.light + pyRoundMul diff (if base.quality = Quality.exotic then fl07m else fl08m),
        base.quality⟩

/-- `Path` wrapper storing light/cost/path properties. -/
structure Path where
  steps : List Item
  cost : ℤ
  item : Item
  light : ℤ
deriving DecidableEq

/-- `functools.reduce(Path.infuse, steps)`. Python's `reduce` raises on an empty
sequence; the `[]` value below is junk for totality — every constructed chain
has length ≥ 2. -/
def reduceInfuse : List Item → Item
  | [] => ⟨0, Quality.legendary⟩
  | s :: rest => rest.foldl Path.infuse s

/-- `Path.__init__`: store steps, cost `(len(steps) - 1) * 3`, and the reduction. -/
def Path.ofSteps (steps : List Item) : Path :=
  let it := reduceInfuse steps
  ⟨steps, ((steps.length : ℤ) - 1) * 3, it, it.light⟩

/-! ### Sorting relations (Python `sorted` with a `light` key, a stable sort) -/

/-- Ordering of items by light, the `key=lambda item: item.light` sort. -/
def lightLe (a b : Item) : Prop := a.light ≤ b.light

instance : DecidableRel lightLe := fun a b => Int.decLe a.light b.light

instance : IsTotal Item lightLe := ⟨fun a b => Int.le_total a.light b.light⟩

instance : IsTrans Item lightLe := ⟨fun _ _ _ hab hbc => le_trans hab hbc⟩

/-- Ordering of paths by resulting light, the `key=lambda path: path.light` sort. -/
def pathLe (a b : Path) : Prop := a.light ≤ b.light

instance : DecidableRel pathLe := fun a b => Int.decLe a.light b.light

instance : IsTotal Path pathLe := ⟨fun a b => Int.le_total a.light b.light⟩

instance : IsTrans Path pathLe := ⟨fun _ _ _ hab hbc => le_trans hab hbc⟩

/-! ### `Paths`: pruning, enumeration, selection -/

/-- Class wrapper storing the `Paths.__init__` results. -/
structure Paths where
  base : Item
  items : List Item
  target : Item
  others : List Item
  paths : List Path
  best_light : Path
  least_cost : Path
deriving DecidableEq

/-- Python `set(tokens)`: one copy of each distinct token. CPython's iteration
order is hash-dependent (and seed-randomized); we fix `List.dedup`'s order —
every property verified below is insensitive to this order. -/
def pySet (tokens : List String) : List String := tokens.dedup

/-- `Paths.uniquify`: parse the deduplicated tokens, sort ascending by light,
keep the items strictly above the base, and fail if none remain. -/
def Paths.uniquify (base : Item) (tokens : List String) : Except Err (List Item) :=
  match (pySet tokens).mapM Item.parse with
  | Except.error e => Except.error e
  | Except.ok parsed =>
    let unique := (List.insertionSort lightLe parsed).filter (fun it => decide (base.light < it.light))
    if unique = [] then Except.error (Err.domainError "Base item is highest light level")
    else Except.ok unique

/-- `itertools.combinations(l, n)` in its lexicographic-by-index order. -/
def combinations {α : Type} : ℕ → List α → List (List α)
  | 0, _ => [[]]
  | _+1, [] => []
  | n+1, x :: xs => ((combinations n xs).map (fun c => x :: c)) ++ combinations (n+1) xs

/-- `Paths.permutate`: the trivial `[low, high]` chain, then `[low] + c + [high]`
for every combination `c` of the middle items, by size from 1 to `len(mid)`. -/
def Paths.permutate (low : Item) (mid : List Item) (high : Item) : List (List Item) :=
  [[low, high]] ++ (List.range mid.length).flatMap
    (fun i => (combinations (i+1) mid).map (fun perm => low :: (perm ++ [high])))

/-- The best-light update: replace the current selection when the candidate has
strictly more light, or the same light at strictly smaller cost. -/
def stepBL (cur p : Path) : Path :=
  if p.light > cur.light ∨ (p.light = cur.light ∧ p.cost < cur.cost) then p else cur

/-- The least-cost update: replace the current selection when the candidate has
strictly smaller cost, or the same cost at strictly more light. -/
def stepLC (cur p : Path) : Path :=
  if p.cost < cur.cost ∨ (p.cost = cur.cost ∧ p.light > cur.light) then p else cur

/-- One iteration of the best-light / least-cost selection loop of `Paths.__init__`. -/
def selStep (s : Path × Path) (p : Path) : Path × Path :=
  (stepBL s.1 p, stepLC s.2 p)

/-- The full selection scan, both selections initialized to `paths[0]`. -/
def selectBest (paths : List Path) (init : Path) : Path × Path :=
  paths.foldl selStep (init, init)

/-- The body of `Paths.__init__` after base parsing and pruning succeeded.
`items` is non-empty whenever it comes from `uniquify`, so the `getLastD` and
`headD` defaults are never used (`permutate` always emits at least one chain). -/
def Paths.build (base : Item) (items : List Item) : Paths :=
  let target := items.getLastD ⟨0, Quality.legendary⟩
  let others := items.dropLast
  let perms := Paths.permutate base others target
  let paths := List.insertionSort pathLe (perms.map Path.ofSteps)
  let first := paths.headD (Path.ofSteps [])
  let sel := selectBest paths first
  ⟨base, items, target, others, paths, sel.1, sel.2⟩

/-- `Paths(base, items)`: parse the base token, prune the candidates, build. -/
def Paths.make (baseTok : String) (tokens : List String) : Except Err Paths :=
  match Item.parse baseTok with
  | Except.error e => Except.error e
  | Except.ok base =>
    match Paths.uniquify base tokens with
    | Except.error e => Except.error e
    | Except.ok items => Except.ok (Paths.build base items)

/-! ### Spec-side definitions (for refinement statements) -/

/-- The spec's threshold: baseline 6, minus 2 for an exotic base, plus 1 for an
exotic target. -/
def specThreshold (base target : Item) : ℤ :=
  6 - (if base.quality = Quality.exotic then 2 else 0)
    + (if target.quality = Quality.exotic then 1 else 0)

/-- Exact round-half-to-even on rationals — the rounding the spec's words
describe for `round(diff * ratio)`. -/
def roundHalfEven (x : ℚ) : ℤ :=
  let f := ⌊x⌋
  if x - f < 1/2 then f
  else if (1 : ℚ)/2 < x - f then f + 1
  else if f % 2 = 0 then f else f + 1

/-- The spec's far-range ratio as an exact rational: 0.7 for an exotic base,
else 0.8. -/
def specRatio (base : Item) : ℚ :=
  if base.quality = Quality.exotic then 7/10 else 4/5

/-- Classifier used to express that a parse outcome is neither a success nor a
`ParseError` (the two outcomes the spec admits). -/
def parseOutcomeOk : Except Err Item → Bool
  | Except.ok _ => true
  | Except.error (Err.parseError _) => true
  | Except.error _ => false

/-- Placeholder collection used only as the default of `Option.getD` when
extracting the result of a concrete successful `Paths.make` run. -/
def dummyPaths : Paths := Paths.build ⟨0, Quality.legendary⟩ []

/-- `domBL r q`: `r` is at least as good as `q` for the best-light selection
(primary key light, maximized; secondary key cost, minimized). -/
def domBL (r q : Path) : Prop :=
  q.light < r.light ∨ (q.light = r.light ∧ r.cost ≤ q.cost)

/-- `domLC r q`: `r` is at least as good as `q` for the least-cost selection
(primary key cost, minimized; secondary key light, maximized). -/
def domLC (r q : Path) : Prop :=
  r.cost < q.cost ∨ (r.cost = q.cost ∧ q.light ≤ r.light)

/-- Characters whose Python `repr()` is themselves and that `str.split()` never
splits: printable non-space ASCII other than backslash and single quote. -/
def plainChars (cs : List Char) : Prop :=
  ∀ c ∈ cs, 33 ≤ c.toNat ∧ c.toNat ≤ 126 ∧ c ≠ bsc ∧ c ≠ sqc

/-! ## Theorems -/

/-! ### Bounds for the binary64 model -/

theorem log2Aux_spec : ∀ fuel n : ℕ, 1 ≤ n → n ≤ fuel →
    2 ^ log2Aux fuel n ≤ n ∧ n < 2 ^ (log2Aux fuel n + 1) := by
  intro fuel
  induction fuel with
  | zero => intro n h1 h2; omega
  | succ f ih =>
    intro n h1 h2
    rw [log2Aux]
    by_cases h : 2 ≤ n
    · rw [if_pos h]
      obtain ⟨hl, hr⟩ := ih (n / 2) (by omega) (by omega)
      have e1 : (2:ℕ) ^ (log2Aux f (n / 2) + 1) = 2 * 2 ^ log2Aux f (n / 2) := by
        rw [pow_succ]; ring
      have e2 : (2:ℕ) ^ (log2Aux f (n / 2) + 1 + 1) = 4 * 2 ^ log2Aux f (n / 2) := by
        rw [pow_succ, pow_succ]; ring
      rw [e1, e2] at *
      omega
    · rw [if_neg h]
      simp only [pow_zero, pow_one]
      omega

theorem intLog2_spec (n : ℕ) (h : 1 ≤ n) :
    2 ^ intLog2 n ≤ n ∧ n < 2 ^ (intLog2 n + 1) :=
  log2Aux_spec n n h le_rfl

theorem rneDiv_int_bound (n : ℤ) (jj : ℕ) :
    |2 ^ (jj+1) * rneDiv n (jj+1) - n| ≤ 2 ^ jj := by
  have hd0 : (0:ℤ) < 2 ^ (jj+1) := by positivity
  have hqr : 2 ^ (jj+1) * (n / 2 ^ (jj+1)) + n % 2 ^ (jj+1) = n := Int.ediv_add_emod n _
  have hr0 : 0 ≤ n % 2 ^ (jj+1) := Int.emod_nonneg n (ne_of_gt hd0)
  have hrd : n % 2 ^ (jj+1) < 2 ^ (jj+1) := Int.emod_lt_of_pos n hd0
  have hpow : (2:ℤ) ^ (jj+1) = 2 * 2 ^ jj := by rw [pow_succ]; ring
  have hdist : (2:ℤ) ^ (jj+1) * (n / 2 ^ (jj+1) + 1) =
      2 ^ (jj+1) * (n / 2 ^ (jj+1)) + 2 ^ (jj+1) := by ring
  unfold rneDiv
  dsimp only
  split_ifs with h1 h2 h3 <;> rw [abs_le] <;> constructor <;> linarith

theorem rneDiv_bound (n : ℤ) (j : ℕ) :
    |(rneDiv n j : ℚ) - (n : ℚ) / 2 ^ j| ≤ 1 / 2 := by
  match j with
  | 0 =>
    simp [rneDiv]
  | jj+1 =>
    have h := rneDiv_int_bound n jj
    have hd0 : (0:ℚ) < 2 ^ (jj+1) := by positivity
    have key : (rneDiv n (jj+1) : ℚ) - (n : ℚ) / 2 ^ (jj+1) =
        ((2 ^ (jj+1) * rneDiv n (jj+1) - n : ℤ) : ℚ) / 2 ^ (jj+1) := by
      field_simp
      ring
    rw [key, abs_div, abs_of_pos hd0, div_le_iff₀ hd0]
    have hcast : (|2 ^ (jj+1) * rneDiv n (jj+1) - n| : ℤ) ≤ 2 ^ jj := h
    have hcastq : |((2 ^ (jj+1) * rneDiv n (jj+1) - n : ℤ) : ℚ)| ≤ (2:ℚ) ^ jj := by
      rw [← Int.cast_abs]
      exact_mod_cast hcast
    have hhalf : (1/2 : ℚ) * 2 ^ (jj+1) = 2 ^ jj := by
      rw [pow_succ]; ring
    linarith

theorem Dy.val_pos (x : Dy) (hm : 1 ≤ x.m) : 0 < x.val := by
  unfold Dy.val
  have h1 : (0:ℚ) < (x.m : ℚ) := by exact_mod_cast lt_of_lt_of_le zero_lt_one hm
  have h2 : (0:ℚ) < (2:ℚ) ^ x.e := zpow_pos (by norm_num) _
  exact mul_pos h1 h2

theorem roundDouble_m_pos (x : Dy) (hm : 1 ≤ x.m) : 1 ≤ (roundDouble x).m := by
  unfold roundDouble
  rw [if_neg (by omega)]
  dsimp only
  split_ifs with hb
  · exact hm
  · set b := intLog2 x.m.toNat with hbdef
    show 1 ≤ rneDiv x.m (b - 52)
    have hq : b - 52 = (b - 53) + 1 := by omega
    have hbound := rneDiv_int_bound x.m (b - 53)
    rw [← hq] at hbound
    have hlog := (intLog2_spec x.m.toNat (by omega)).1
    have hcast : ((2:ℤ) ^ b) ≤ x.m := by
      calc ((2:ℤ) ^ b) = ((2 ^ b : ℕ) : ℤ) := by push_cast; ring
        _ ≤ (x.m.toNat : ℤ) := by exact_mod_cast hlog
        _ = x.m := Int.toNat_of_nonneg (by omega)
    have hA : (0:ℤ) < 2 ^ (b - 53) := by positivity
    have hbig : (2:ℤ) ^ b = 2 ^ (b - 53) * 2 ^ 53 := by
      rw [← pow_add]
      congr 1
      omega
    have htwo : 2 * (2:ℤ) ^ (b - 53) ≤ 2 ^ (b - 53) * 2 ^ 53 := by nlinarith [hA]
    have hlow := (abs_le.mp hbound).1
    by_contra hc
    push_neg at hc
    have hnp : 2 ^ (b - 52) * rneDiv x.m (b - 52) ≤ 0 :=
      mul_nonpos_of_nonneg_of_nonpos (by positivity) (by omega)
    linarith

theorem roundDouble_bound (x : Dy) (hm : 1 ≤ x.m) :
    |(roundDouble x).val - x.val| ≤ x.val / 2 ^ 53 := by
  have hvpos := Dy.val_pos x hm
  unfold roundDouble
  rw [if_neg (by omega)]
  dsimp only
  split_ifs with hb
  · rw [sub_self, abs_zero]
    positivity
  · set b := intLog2 x.m.toNat with hbdef
    have hq : b - 52 = (b - 53) + 1 := by omega
    have hbound := rneDiv_int_bound x.m (b - 53)
    rw [← hq] at hbound
    have hlog := (intLog2_spec x.m.toNat (by omega)).1
    have hcast : ((2:ℤ) ^ b) ≤ x.m := by
      calc ((2:ℤ) ^ b) = ((2 ^ b : ℕ) : ℤ) := by push_cast; ring
        _ ≤ (x.m.toNat : ℤ) := by exact_mod_cast hlog
        _ = x.m := Int.toNat_of_nonneg (by omega)
    -- value of the rounded dyadic
    have hzpow : (2:ℚ) ^ (x.e + ((b - 52 : ℕ) : ℤ)) = 2 ^ x.e * 2 ^ (b - 52 : ℕ) := by
      rw [zpow_add₀ (two_ne_zero), zpow_natCast]
    have hval : (Dy.mk (rneDiv x.m (b - 52)) (x.e + (b - 52 : ℕ))).val - x.val =
        ((2 ^ (b - 52) * rneDiv x.m (b - 52) - x.m : ℤ) : ℚ) * 2 ^ x.e := by
      unfold Dy.val
      dsimp only
      rw [hzpow]
      push_cast
      ring
    rw [hval, abs_mul, abs_of_pos (zpow_pos (show (0:ℚ) < 2 by norm_num) x.e)]
    have hcq : |((2 ^ (b - 52) * rneDiv x.m (b - 52) - x.m : ℤ) : ℚ)| ≤ (2:ℚ) ^ (b - 53 : ℕ) := by
      rw [← Int.cast_abs]
      exact_mod_cast hbound
    have hstep : (2:ℚ) ^ (b - 53 : ℕ) * 2 ^ x.e ≤ x.val / 2 ^ 53 := by
      rw [le_div_iff₀ (by positivity : (0:ℚ) < 2 ^ 53)]
      have hbb : (2:ℚ) ^ (b - 53 : ℕ) * 2 ^ x.e * 2 ^ 53 = (2:ℚ) ^ b * 2 ^ x.e := by
        rw [mul_right_comm, ← pow_add]
        congr 2
        omega
      rw [hbb]
      unfold Dy.val
      have hcq2 : ((2:ℚ) ^ b) ≤ (x.m : ℚ) := by exact_mod_cast hcast
      exact mul_le_mul_of_nonneg_right hcq2 (le_of_lt (zpow_pos (by norm_num) _))
    calc |((2 ^ (b - 52) * rneDiv x.m (b - 52) - x.m : ℤ) : ℚ)| * 2 ^ x.e
        ≤ (2:ℚ) ^ (b - 53 : ℕ) * 2 ^ x.e := by
          exact mul_le_mul_of_nonneg_right hcq (le_of_lt (zpow_pos (by norm_num) _))
      _ ≤ x.val / 2 ^ 53 := hstep

theorem pyRound_bound (x : Dy) : |(pyRound x : ℚ) - x.val| ≤ 1 / 2 := by
  unfold pyRound Dy.val
  split_ifs with h
  · have hval : ((x.m * 2 ^ x.e.toNat : ℤ) : ℚ) = (x.m : ℚ) * 2 ^ x.e := by
      push_cast
      congr 1
      rw [← zpow_natCast (2:ℚ) x.e.toNat, Int.toNat_of_nonneg h]
    rw [hval, sub_self, abs_zero]
    norm_num
  · have he2 : (2:ℚ) ^ x.e = ((2:ℚ) ^ ((-x.e).toNat : ℕ))⁻¹ := by
      rw [← zpow_natCast (2:ℚ) ((-x.e).toNat), ← zpow_neg]
      congr 1
      omega
    rw [he2]
    have := rneDiv_bound x.m (-x.e).toNat
    rwa [div_eq_mul_inv] at this

theorem Dy.val_int (n : ℤ) : (Dy.mk n 0).val = (n : ℚ) := by
  unfold Dy.val
  rw [zpow_zero, mul_one]

theorem Dy.val_mul (x y : Dy) : (Dy.mk (x.m * y.m) (x.e + y.e)).val = x.val * y.val := by
  unfold Dy.val
  push_cast
  rw [zpow_add₀ (two_ne_zero)]
  ring

theorem Dy.val_neg52 (n : ℤ) : (Dy.mk n (-52)).val = (n : ℚ) / 2 ^ 52 := by
  unfold Dy.val
  rw [show ((-52 : ℤ)) = -((52 : ℕ) : ℤ) by norm_num, zpow_neg, zpow_natCast, div_eq_mul_inv]

/-- Numeric facts about the two percentage mantissas. -/
theorem percM_range (pm : ℤ) (h1 : fl07m ≤ pm) (h2 : pm ≤ fl08m) :
    (69/100 : ℚ) ≤ (pm : ℚ) / 2 ^ 52 ∧ ((pm : ℚ) / 2 ^ 52) ≤ 81/100 := by
  simp only [fl07m, fl08m] at h1 h2
  have hc1 : ((3152519739159347 : ℚ)) ≤ (pm : ℚ) := by exact_mod_cast h1
  have hc2 : ((pm : ℚ)) ≤ 3602879701896397 := by exact_mod_cast h2
  have hlo : (69/100 : ℚ) ≤ (3152519739159347 : ℚ) / 2 ^ 52 := by norm_num
  have hhi : ((3602879701896397 : ℚ)) / 2 ^ 52 ≤ 81/100 := by norm_num
  constructor
  · exact hlo.trans ((div_le_div_iff_of_pos_right (by positivity)).mpr hc1)
  · exact ((div_le_div_iff_of_pos_right (by positivity)).mpr hc2).trans hhi

/-- Master estimate for `round(diff * perc)` as evaluated in binary64: it is
within `1/2 + diff/2^52` of the exact product `diff * (percM/2^52)`, it is
non-negative, and for `diff ≥ 5` it is strictly below `diff`. -/
theorem pyRoundMul_est (d pm : ℤ) (hd : 1 ≤ d) (h1 : fl07m ≤ pm) (h2 : pm ≤ fl08m) :
    |(pyRoundMul d pm : ℚ) - (d : ℚ) * ((pm : ℚ) / 2 ^ 52)| ≤ 1/2 + (d : ℚ) / 2 ^ 52 ∧
    0 ≤ pyRoundMul d pm ∧ ((5 : ℤ) ≤ d → pyRoundMul d pm < d) := by
  obtain ⟨hq1, hq2⟩ := percM_range pm h1 h2
  have hq0 : (0:ℚ) ≤ (pm : ℚ) / 2 ^ 52 := le_trans (by norm_num) hq1
  have hD : (1:ℚ) ≤ (d : ℚ) := by exact_mod_cast hd
  have hfdm : 1 ≤ (roundDouble ⟨d, 0⟩).m := roundDouble_m_pos ⟨d, 0⟩ hd
  have hfdb := roundDouble_bound ⟨d, 0⟩ hd
  rw [Dy.val_int d] at hfdb
  set fd := roundDouble ⟨d, 0⟩ with hfddef
  have hfval_pos : 0 < fd.val := Dy.val_pos fd hfdm
  have hpm1 : (1:ℤ) ≤ pm := le_trans (by norm_num [fl07m]) h1
  have hprodm : 1 ≤ fd.m * pm := by nlinarith
  have hvalmul : (Dy.mk (fd.m * pm) (fd.e + -52)).val = fd.val * ((pm : ℚ) / 2 ^ 52) := by
    have h := Dy.val_mul fd ⟨pm, -52⟩
    rw [Dy.val_neg52] at h
    exact h
  have hgb := roundDouble_bound ⟨fd.m * pm, fd.e + -52⟩ hprodm
  rw [hvalmul] at hgb
  set g := roundDouble ⟨fd.m * pm, fd.e + -52⟩ with hgdef
  have hrb := pyRound_bound g
  have hpr : pyRoundMul d pm = pyRound g := rfl
  rw [abs_le] at hfdb hgb hrb
  set D : ℚ := (d : ℚ) with hDdef
  set q : ℚ := (pm : ℚ) / 2 ^ 52 with hqdef
  set P : ℚ := fd.val * q with hPdef
  -- bounds for the exact product of the two doubles
  have hprod_up : P ≤ (D + D/2^53) * (81/100) :=
    mul_le_mul (by linarith [hfdb.2]) hq2 hq0 (by linarith)
  have hprod_lo : (D - D/2^53) * (69/100) ≤ P :=
    mul_le_mul (by linarith [hfdb.1]) hq1 (by norm_num) (le_of_lt hfval_pos)
  -- two-sided bound for P - D*q
  have hdq_up : P - D * q ≤ (D/2^53) * (81/100) := by
    have s1 : (fd.val - D) * q ≤ (D/2^53) * q :=
      mul_le_mul_of_nonneg_right hfdb.2 hq0
    have s2 : (D/2^53) * q ≤ (D/2^53) * (81/100) :=
      mul_le_mul_of_nonneg_left hq2 (by positivity)
    calc P - D * q = (fd.val - D) * q := by rw [hPdef]; ring
      _ ≤ (D/2^53) * q := s1
      _ ≤ (D/2^53) * (81/100) := s2
  have hdq_lo : -((D/2^53) * (81/100)) ≤ P - D * q := by
    have s1 : (-(D/2^53)) * q ≤ (fd.val - D) * q :=
      mul_le_mul_of_nonneg_right hfdb.1 hq0
    have s2 : (-(D/2^53)) * (81/100) ≤ (-(D/2^53)) * q :=
      mul_le_mul_of_nonpos_left hq2 (neg_nonpos.mpr (by positivity))
    calc (-((D/2^53) * (81/100))) = (-(D/2^53)) * (81/100) := by ring
      _ ≤ (-(D/2^53)) * q := s2
      _ ≤ (fd.val - D) * q := s1
      _ = P - D * q := by rw [hPdef]; ring
  refine ⟨?_, ?_, ?_⟩
  · rw [hpr, abs_le]
    constructor <;>
      linarith [hgb.1, hgb.2, hrb.1, hrb.2, hprod_up, hprod_lo, hdq_up, hdq_lo, hD]
  · have hgap : (-1 : ℚ) < (pyRound g : ℚ) := by
      nlinarith [hgb.1, hrb.1, hprod_lo]
    have : (-1 : ℤ) < pyRound g := by exact_mod_cast hgap
    rw [hpr]
    omega
  · intro hd5
    have hD5 : (5:ℚ) ≤ D := by rw [hDdef]; exact_mod_cast hd5
    have hlt : (pyRound g : ℚ) < D := by
      nlinarith [hgb.2, hrb.2, hprod_up]
    rw [hDdef] at hlt
    rw [hpr]
    exact_mod_cast hlt

/-- The binary64 evaluation of `round(diff * perc)` stays within `1/2 + diff/2^51`
of the exact products `diff * 7/10` and `diff * 4/5`. -/
theorem pyRoundMul_ratio (d : ℤ) (hd : 1 ≤ d) :
    |(pyRoundMul d fl07m : ℚ) - (d:ℚ) * (7/10)| ≤ 1/2 + (d:ℚ)/2^51 ∧
    |(pyRoundMul d fl08m : ℚ) - (d:ℚ) * (4/5)| ≤ 1/2 + (d:ℚ)/2^51 := by
  have h7 := (pyRoundMul_est d fl07m hd le_rfl (by norm_num [fl07m, fl08m])).1
  have h8 := (pyRoundMul_est d fl08m hd (by norm_num [fl07m, fl08m]) le_rfl).1
  have he7 : ((fl07m : ℚ))/2^52 = 7/10 - 1/(5 * 2^52) := by norm_num [fl07m]
  have he8 : ((fl08m : ℚ))/2^52 = 4/5 + 1/(5 * 2^52) := by norm_num [fl08m]
  have hD1 : (1:ℚ) ≤ (d:ℚ) := by exact_mod_cast hd
  rw [he7, abs_le] at h7
  rw [he8, abs_le] at h8
  constructor <;> rw [abs_le] <;> constructor <;>
    linarith [h7.1, h7.2, h8.1, h8.2, hD1]

/-! ### Single-step infusion facts -/

/-- The close-range cutoff `comp` is always between 4 and 7. -/
theorem specThreshold_range (base target : Item) :
    4 ≤ specThreshold base target ∧ specThreshold base target ≤ 7 := by
  unfold specThreshold
  split_ifs <;> norm_num

/-- In the penalty branch the result is built from `pyRoundMul`; in the close
branch the target itself is returned. -/
theorem infuse_eq (base target : Item) :
    Path.infuse base target =
      (if target.light - base.light ≤ specThreshold base target then target
       else ⟨base.light +
              pyRoundMul (target.light - base.light)
                (if base.quality = Quality.exotic then fl07m else fl08m),
             base.quality⟩) := rfl

/-- A single infusion step never loses light and never exceeds the target:
for `base.light ≤ target.light` the result is in `[base.light, target.light]`. -/
theorem infuse_light_between (base target : Item) (h : base.light ≤ target.light) :
    base.light ≤ (Path.infuse base target).light ∧
      (Path.infuse base target).light ≤ target.light := by
  rw [infuse_eq]
  by_cases hc : target.light - base.light ≤ specThreshold base target
  · rw [if_pos hc]
    exact ⟨h, le_rfl⟩
  · rw [if_neg hc]
    push_neg at hc
    have hcomp := (specThreshold_range base target).1
    have hd5 : 5 ≤ target.light - base.light := by omega
    set pm := if base.quality = Quality.exotic then fl07m else fl08m with hpm
    have hpm7 : fl07m ≤ pm := by
      rw [hpm]
      by_cases hbq : base.quality = Quality.exotic
      · rw [if_pos hbq]
      · rw [if_neg hbq]; norm_num [fl07m, fl08m]
    have hpm8 : pm ≤ fl08m := by
      rw [hpm]
      by_cases hbq : base.quality = Quality.exotic
      · rw [if_pos hbq]; norm_num [fl07m, fl08m]
      · rw [if_neg hbq]
    obtain ⟨_, hge0, hlt⟩ := pyRoundMul_est (target.light - base.light) pm (by omega) hpm7 hpm8
    have hlt5 := hlt hd5
    constructor
    · show base.light ≤ base.light + pyRoundMul (target.light - base.light) pm
      omega
    · show base.light + pyRoundMul (target.light - base.light) pm ≤ target.light
      omega

/-- The quality of the infusion result: the target's own quality in the close
range (the target object is returned), the base's quality in the penalty branch. -/
theorem infuse_quality (base target : Item) :
    (target.light - base.light ≤ specThreshold base target →
      Path.infuse base target = target) ∧
    (specThreshold base target < target.light - base.light →
      (Path.infuse base target).quality = base.quality) := by
  rw [infuse_eq]
  constructor
  · intro hc
    rw [if_pos hc]
  · intro hc
    rw [if_neg (by omega)]

/-! ### C1: rarity of a single-step result -/

/-- C1 counterexample: the claim says the result rarity equals the base rarity on
both branches, but on the no-penalty branch (diff = 5 ≤ threshold = 7) the
function returns the target item itself: infusing a legendary 290 with an exotic
295 yields an exotic item, not a legendary one. -/
theorem C1_counterexample :
    (295 : ℤ) - 290 ≤ specThreshold ⟨290, Quality.legendary⟩ ⟨295, Quality.exotic⟩ ∧
    (Path.infuse ⟨290, Quality.legendary⟩ ⟨295, Quality.exotic⟩).quality ≠
      (⟨290, Quality.legendary⟩ : Item).quality := by
  decide

/-- C1 amended: the result rarity equals the base rarity on the penalty branch
only; on the no-penalty branch (diff ≤ threshold) the result is the target item
itself, so its rarity is the target's. -/
theorem C1_rarity (base target : Item) :
    (target.light - base.light ≤ specThreshold base target →
      Path.infuse base target = target) ∧
    (specThreshold base target < target.light - base.light →
      (Path.infuse base target).quality = base.quality) :=
  infuse_quality base target

/-- C1 witness: both branches exercised at concrete items. -/
theorem C1_rarity_witness :
    Path.infuse ⟨290, Quality.legendary⟩ ⟨295, Quality.exotic⟩ = ⟨295, Quality.exotic⟩ ∧
    (Path.infuse ⟨290, Quality.legendary⟩ ⟨310, Quality.legendary⟩).quality =
      Quality.legendary :=
  ⟨(C1_rarity ⟨290, Quality.legendary⟩ ⟨295, Quality.exotic⟩).1 (by decide),
   (C1_rarity ⟨290, Quality.legendary⟩ ⟨310, Quality.legendary⟩).2 (by decide)⟩

/-! ### C2: the single-step light formula -/

/-- C2 counterexample: with an exotic base 300 and legendary target 345,
`diff = 45`, CPython evaluates `45 * 0.7` to `31.499999999999996` (the floats
round below the exact 31.5), so the code yields light `300 + 31 = 331`, while
exact round-half-to-even of `diff * ratio` gives `300 + 32 = 332` as the claim
states. -/
theorem C2_counterexample :
    (Path.infuse ⟨300, Quality.exotic⟩ ⟨345, Quality.legendary⟩).light = 331 ∧
    (300 : ℤ) + roundHalfEven ((45 : ℚ) * (7/10)) = 332 := by
  constructor
  · decide
  · have hx : (45 : ℚ) * (7/10) = 63/2 := by norm_num
    have hf : ⌊(63/2 : ℚ)⌋ = 31 := by
      rw [Int.floor_eq_iff]
      norm_num
    unfold roundHalfEven
    rw [hx]
    rw [hf]
    norm_num

/-- C2 amended: threshold (6, −2 exotic base, +1 exotic target), branch
condition and no-penalty transfer are as claimed; the penalty light is
`base.light + round(diff * ratio)` with the product and the literals 0.7/0.8
evaluated in IEEE-754 binary64 (within `1/2 + diff/2^51` of the exact product,
but not always equal to exact round-half-to-even, e.g. diff 45, exotic base).
The claim's two examples hold: legendary 290 ← legendary 310 gives 306, exotic
300 ← legendary 310 gives 307. -/
theorem C2_formula (base target : Item) :
    (target.light - base.light ≤ specThreshold base target →
      (Path.infuse base target).light = target.light) ∧
    (specThreshold base target < target.light - base.light →
      (Path.infuse base target).light =
        base.light + pyRoundMul (target.light - base.light)
          (if base.quality = Quality.exotic then fl07m else fl08m)) ∧
    (specThreshold base target < target.light - base.light →
      |(((Path.infuse base target).light - base.light : ℤ) : ℚ) -
          ((target.light - base.light : ℤ) : ℚ) * specRatio base| ≤
        1/2 + ((target.light - base.light : ℤ) : ℚ) / 2^51) ∧
    (Path.infuse ⟨290, Quality.legendary⟩ ⟨310, Quality.legendary⟩).light = 306 ∧
    (Path.infuse ⟨300, Quality.exotic⟩ ⟨310, Quality.legendary⟩).light = 307 := by
  refine ⟨?_, ?_, ?_, by decide, by decide⟩
  · intro hc
    rw [infuse_eq, if_pos hc]
  · intro hc
    rw [infuse_eq, if_neg (by omega)]
  · intro hc
    rw [infuse_eq, if_neg (by omega)]
    have hcomp := (specThreshold_range base target).1
    have hd1 : (1:ℤ) ≤ target.light - base.light := by omega
    have hr := pyRoundMul_ratio (target.light - base.light) hd1
    by_cases hbq : base.quality = Quality.exotic
    · rw [if_pos hbq]
      unfold specRatio
      rw [if_pos hbq]
      show |((base.light + pyRoundMul (target.light - base.light) fl07m - base.light : ℤ) : ℚ) -
          ((target.light - base.light : ℤ) : ℚ) * (7/10)| ≤
        1/2 + ((target.light - base.light : ℤ) : ℚ) / 2^51
      have he : base.light + pyRoundMul (target.light - base.light) fl07m - base.light =
          pyRoundMul (target.light - base.light) fl07m := by ring
      rw [he]
      exact hr.1
    · rw [if_neg hbq]
      unfold specRatio
      rw [if_neg hbq]
      show |((base.light + pyRoundMul (target.light - base.light) fl08m - base.light : ℤ) : ℚ) -
          ((target.light - base.light : ℤ) : ℚ) * (4/5)| ≤
        1/2 + ((target.light - base.light : ℤ) : ℚ) / 2^51
      have he : base.light + pyRoundMul (target.light - base.light) fl08m - base.light =
          pyRoundMul (target.light - base.light) fl08m := by ring
      rw [he]
      exact hr.2

/-- C2 witness: both branches exercised at concrete items. -/
theorem C2_formula_witness :
    (Path.infuse ⟨290, Quality.legendary⟩ ⟨295, Quality.legendary⟩).light = 295 ∧
    (Path.infuse ⟨290, Quality.legendary⟩ ⟨310, Quality.legendary⟩).light =
      290 + pyRoundMul 20 fl08m :=
  ⟨(C2_formula ⟨290, Quality.legendary⟩ ⟨295, Quality.legendary⟩).1 (by decide),
   (C2_formula ⟨290, Quality.legendary⟩ ⟨310, Quality.legendary⟩).2.1 (by decide)⟩

/-! ### Combinatorics of chain enumeration -/

theorem combinations_length {α : Type} : ∀ (n : ℕ) (l : List α),
    (combinations n l).length = Nat.choose l.length n := by
  intro n l
  induction l generalizing n with
  | nil => cases n <;> simp [combinations]
  | cons x xs ih =>
    cases n with
    | zero => simp [combinations]
    | succ m =>
      simp only [combinations, List.length_append, List.length_map, ih, List.length_cons]
      rw [Nat.choose_succ_succ]

theorem combinations_sublist {α : Type} : ∀ (n : ℕ) (l c : List α),
    c ∈ combinations n l → c.Sublist l := by
  intro n l
  induction l generalizing n with
  | nil =>
    intro c hc
    cases n with
    | zero =>
      simp only [combinations, List.mem_singleton] at hc
      simp [hc]
    | succ m => simp [combinations] at hc
  | cons x xs ih =>
    intro c hc
    cases n with
    | zero =>
      simp only [combinations, List.mem_singleton] at hc
      simp [hc]
    | succ m =>
      simp only [combinations, List.mem_append, List.mem_map] at hc
      rcases hc with ⟨c', hc', rfl⟩ | hc
      · exact List.Sublist.cons₂ x (ih m c' hc')
      · exact List.Sublist.cons x (ih (m+1) c hc)

/-- `permutate` emits exactly `2^len(mid)` chains. -/
theorem permutate_length (low : Item) (mid : List Item) (high : Item) :
    (Paths.permutate low mid high).length = 2 ^ mid.length := by
  unfold Paths.permutate
  rw [List.length_append, List.length_flatMap]
  have hmap : (List.map (List.length ∘ fun i =>
      (combinations (i+1) mid).map (fun perm => low :: (perm ++ [high]))) (List.range mid.length)) =
      (List.map (fun i => Nat.choose mid.length (i+1)) (List.range mid.length)) := by
    apply List.map_congr_left
    intro i _
    simp [combinations_length]
  rw [hmap]
  have hsum : ((List.range mid.length).map (fun i => Nat.choose mid.length (i+1))).sum =
      ∑ i ∈ Finset.range mid.length, Nat.choose mid.length (i+1) := rfl
  have hchoose := Nat.sum_range_choose mid.length
  rw [Finset.sum_range_succ', Nat.choose_zero_right] at hchoose
  simp only [List.length_singleton]
  rw [hsum]
  omega

/-- The trivial chain `[low, high]` is the first chain `permutate` emits. -/
theorem permutate_mem_trivial (low : Item) (mid : List Item) (high : Item) :
    [low, high] ∈ Paths.permutate low mid high := by
  unfold Paths.permutate
  exact List.mem_append_left _ (List.mem_singleton.mpr rfl)

/-- Every chain `permutate` emits is `low :: (c ++ [high])` for a combination
`c` of the middle items (the trivial chain taking `c = []`). -/
theorem permutate_shape (low : Item) (mid : List Item) (high : Item) (chain : List Item)
    (h : chain ∈ Paths.permutate low mid high) :
    ∃ c : List Item, c.Sublist mid ∧ chain = low :: (c ++ [high]) := by
  unfold Paths.permutate at h
  rw [List.mem_append] at h
  rcases h with h | h
  · exact ⟨[], List.nil_sublist mid, by simpa using h⟩
  · rw [List.mem_flatMap] at h
    obtain ⟨i, _, hmem⟩ := h
    rw [List.mem_map] at hmem
    obtain ⟨c, hc, rfl⟩ := hmem
    exact ⟨c, combinations_sublist (i+1) mid c hc, rfl⟩

/-! ### Structure of `uniquify` and `Paths.make` results -/

theorem uniquify_ok (base : Item) (tokens : List String) (l : List Item)
    (h : Paths.uniquify base tokens = Except.ok l) :
    ∃ parsed, (pySet tokens).mapM Item.parse = Except.ok parsed ∧
      l = (List.insertionSort lightLe parsed).filter (fun it => decide (base.light < it.light)) ∧
      l ≠ [] := by
  unfold Paths.uniquify at h
  cases hm : (pySet tokens).mapM Item.parse with
  | error e =>
    rw [hm] at h
    exact Except.noConfusion h
  | ok parsed =>
    rw [hm] at h
    dsimp only at h
    by_cases hne : (List.insertionSort lightLe parsed).filter
        (fun it => decide (base.light < it.light)) = []
    · rw [if_pos hne] at h
      exact Except.noConfusion h
    · rw [if_neg hne] at h
      injection h with h'
      subst h'
      exact ⟨parsed, rfl, rfl, hne⟩

theorem uniquify_props (base : Item) (tokens : List String) (l : List Item)
    (h : Paths.uniquify base tokens = Except.ok l) :
    l.Sorted lightLe ∧ (∀ it ∈ l, base.light < it.light) ∧ l ≠ [] := by
  obtain ⟨parsed, hm, rfl, hne⟩ := uniquify_ok base tokens l h
  refine ⟨?_, ?_, hne⟩
  · exact List.Pairwise.sublist (List.filter_sublist _) (List.sorted_insertionSort lightLe parsed)
  · intro it hit
    simp only [List.mem_filter, decide_eq_true_eq] at hit
    exact hit.2

theorem make_ok (bt : String) (ts : List String) (P : Paths)
    (h : Paths.make bt ts = Except.ok P) :
    ∃ base items, Item.parse bt = Except.ok base ∧
      Paths.uniquify base ts = Except.ok items ∧ P = Paths.build base items := by
  unfold Paths.make at h
  cases hb : Item.parse bt with
  | error e =>
    rw [hb] at h
    exact Except.noConfusion h
  | ok base =>
    rw [hb] at h
    dsimp only at h
    cases hu : Paths.uniquify base ts with
    | error e =>
      rw [hu] at h
      exact Except.noConfusion h
    | ok items =>
      rw [hu] at h
      injection h with h'
      exact ⟨base, items, rfl, hu, h'.symm⟩

/-- The fields of `Paths.build` (the locals of `Paths.__init__`). -/
theorem build_paths_eq (base : Item) (items : List Item) :
    (Paths.build base items).paths = List.insertionSort pathLe
      ((Paths.permutate base items.dropLast
        (items.getLastD ⟨0, Quality.legendary⟩)).map Path.ofSteps) := rfl

theorem build_sel_eq (base : Item) (items : List Item) :
    (Paths.build base items).best_light =
      (selectBest (Paths.build base items).paths
        ((Paths.build base items).paths.headD (Path.ofSteps []))).1 ∧
    (Paths.build base items).least_cost =
      (selectBest (Paths.build base items).paths
        ((Paths.build base items).paths.headD (Path.ofSteps []))).2 :=
  ⟨rfl, rfl⟩

/-! ### C3: number of generated paths and the trivial chain -/

/-- C3: for every successfully constructed collection, the number of generated
paths is `2 ^ len(others)`, and the trivial two-step chain `[base, target]` is
among the generated chains. -/
theorem C3_path_count (bt : String) (ts : List String) (P : Paths)
    (h : Paths.make bt ts = Except.ok P) :
    P.paths.length = 2 ^ P.others.length ∧
    ∃ p ∈ P.paths, p.steps = [P.base, P.target] := by
  obtain ⟨base, items, hb, hu, rfl⟩ := make_ok bt ts P h
  constructor
  · rw [build_paths_eq,
      (List.perm_insertionSort pathLe _).length_eq, List.length_map, permutate_length]
    rfl
  · refine ⟨Path.ofSteps [base, items.getLastD ⟨0, Quality.legendary⟩], ?_, rfl⟩
    rw [build_paths_eq, (List.perm_insertionSort pathLe _).mem_iff]
    exact List.mem_map_of_mem Path.ofSteps (permutate_mem_trivial base _ _)

/-- C3 witness: a concrete run with one intermediate item: 2 paths, and the
trivial chain is generated. -/
theorem C3_path_count_witness :
    ((Paths.make "290" ["295", "300"]).toOption.getD dummyPaths).paths.length =
      2 ^ ((Paths.make "290" ["295", "300"]).toOption.getD dummyPaths).others.length ∧
    ∃ p ∈ ((Paths.make "290" ["295", "300"]).toOption.getD dummyPaths).paths,
      p.steps = [((Paths.make "290" ["295", "300"]).toOption.getD dummyPaths).base,
                 ((Paths.make "290" ["295", "300"]).toOption.getD dummyPaths).target] :=
  C3_path_count "290" ["295", "300"] _ (by rfl)

/-! ### C10: single-step and whole-path light bounds -/

/-- Every chain `permutate` builds from the pruned item list is ascending in
light, starting at the base. -/
theorem chain_sorted (base : Item) (items : List Item)
    (hs : items.Sorted lightLe) (hgt : ∀ it ∈ items, base.light < it.light)
    (hne : items ≠ []) (c : List Item) (hc : c.Sublist items.dropLast) :
    List.Sorted lightLe (base :: (c ++ [items.getLastD ⟨0, Quality.legendary⟩])) := by
  have htgt : items.getLastD ⟨0, Quality.legendary⟩ = items.getLast hne := by
    rw [List.getLastD_eq_getLast?, List.getLast?_eq_getLast items hne]
    rfl
  have hitems : items.dropLast ++ [items.getLast hne] = items :=
    List.dropLast_append_getLast hne
  have hsub : (c ++ [items.getLastD ⟨0, Quality.legendary⟩]).Sublist items := by
    have hsub0 : (c ++ [items.getLast hne]).Sublist (items.dropLast ++ [items.getLast hne]) :=
      List.Sublist.append hc (List.Sublist.refl _)
    rw [hitems] at hsub0
    rw [htgt]
    exact hsub0
  have hsorted : (c ++ [items.getLastD ⟨0, Quality.legendary⟩]).Sorted lightLe :=
    List.Pairwise.sublist hsub hs
  refine List.sorted_cons.mpr ⟨?_, hsorted⟩
  intro it hit
  exact le_of_lt (hgt it (hsub.subset hit))

/-- Folding `infuse` along an ascending chain never exceeds the last step. -/
theorem foldl_infuse_le : ∀ (rest : List Item) (cur : Item),
    List.Sorted lightLe (cur :: rest) →
    (rest.foldl Path.infuse cur).light ≤ ((rest.getLastD cur)).light := by
  intro rest
  induction rest with
  | nil =>
    intro cur _
    simp [List.getLastD]
  | cons y ys ih =>
    intro cur hs
    have hcy : lightLe cur y := (List.sorted_cons.mp hs).1 y (by simp)
    have hs2 : List.Sorted lightLe (y :: ys) := (List.sorted_cons.mp hs).2
    have hstep := infuse_light_between cur y hcy
    have hs3 : List.Sorted lightLe (Path.infuse cur y :: ys) := by
      rw [List.sorted_cons]
      refine ⟨?_, (List.sorted_cons.mp hs2).2⟩
      intro z hz
      exact le_trans hstep.2 ((List.sorted_cons.mp hs2).1 z hz)
    have hih := ih (Path.infuse cur y) hs3
    show (ys.foldl Path.infuse (Path.infuse cur y)).light ≤ ((y :: ys).getLastD cur).light
    cases ys with
    | nil =>
      simpa [List.getLastD] using hstep.2
    | cons z zs =>
      rw [List.getLastD_cons, List.getLastD_cons]
      rw [List.getLastD_cons] at hih
      exact hih

/-- C10: a single infusion step with `base.light ≤ target.light` lands between
the two lights, and consequently every generated path's final light is at most
the light of its last step, the collection's target. -/
theorem C10_light_bounds :
    (∀ base target : Item, base.light ≤ target.light →
      base.light ≤ (Path.infuse base target).light ∧
        (Path.infuse base target).light ≤ target.light) ∧
    (∀ (bt : String) (ts : List String) (P : Paths),
      Paths.make bt ts = Except.ok P → ∀ p ∈ P.paths, p.light ≤ P.target.light) := by
  refine ⟨infuse_light_between, ?_⟩
  intro bt ts P h p hp
  obtain ⟨base, items, hb, hu, rfl⟩ := make_ok bt ts P h
  obtain ⟨hsorted, hgt, hne⟩ := uniquify_props base ts items hu
  rw [build_paths_eq, (List.perm_insertionSort pathLe _).mem_iff, List.mem_map] at hp
  obtain ⟨chain, hchain, rfl⟩ := hp
  obtain ⟨c, hc, rfl⟩ := permutate_shape _ _ _ chain hchain
  have hsortedchain := chain_sorted base items hsorted hgt hne c hc
  have hfold := foldl_infuse_le (c ++ [items.getLastD ⟨0, Quality.legendary⟩]) base hsortedchain
  rw [List.getLastD_concat] at hfold
  exact hfold

/-- C10 witness: both parts at concrete inputs. -/
theorem C10_light_bounds_witness :
    ((290 : ℤ) ≤ (Path.infuse ⟨290, Quality.legendary⟩ ⟨310, Quality.legendary⟩).light ∧
      (Path.infuse ⟨290, Quality.legendary⟩ ⟨310, Quality.legendary⟩).light ≤ 310) ∧
    (((Paths.make "290" ["295"]).toOption.getD dummyPaths).paths.headD (Path.ofSteps [])).light ≤
      ((Paths.make "290" ["295"]).toOption.getD dummyPaths).target.light :=
  ⟨C10_light_bounds.1 ⟨290, Quality.legendary⟩ ⟨310, Quality.legendary⟩ (by decide),
   C10_light_bounds.2 "290" ["295"] _ (by rfl) _ (by decide)⟩

/-! ### C4/C5: the selection scan -/

theorem domBL_trans {a b c : Path} (h1 : domBL a b) (h2 : domBL b c) : domBL a c := by
  unfold domBL at *
  omega

theorem domLC_trans {a b c : Path} (h1 : domLC a b) (h2 : domLC b c) : domLC a c := by
  unfold domLC at *
  omega

theorem stepBL_dom (cur p : Path) : domBL (stepBL cur p) cur ∧ domBL (stepBL cur p) p := by
  unfold stepBL domBL
  split_ifs <;> omega

theorem stepLC_dom (cur p : Path) : domLC (stepLC cur p) cur ∧ domLC (stepLC cur p) p := by
  unfold stepLC domLC
  split_ifs <;> omega

theorem foldl_stepBL_dom : ∀ (l : List Path) (a : Path),
    domBL (l.foldl stepBL a) a ∧ ∀ p ∈ l, domBL (l.foldl stepBL a) p := by
  intro l
  induction l with
  | nil =>
    intro a
    exact ⟨Or.inr ⟨rfl, le_rfl⟩, by simp⟩
  | cons p ps ih =>
    intro a
    have hstep := stepBL_dom a p
    obtain ⟨hd, hall⟩ := ih (stepBL a p)
    refine ⟨domBL_trans hd hstep.1, ?_⟩
    intro q hq
    rcases List.mem_cons.mp hq with rfl | hq
    · exact domBL_trans hd hstep.2
    · exact hall q hq

theorem foldl_stepLC_dom : ∀ (l : List Path) (a : Path),
    domLC (l.foldl stepLC a) a ∧ ∀ p ∈ l, domLC (l.foldl stepLC a) p := by
  intro l
  induction l with
  | nil =>
    intro a
    exact ⟨Or.inr ⟨rfl, le_rfl⟩, by simp⟩
  | cons p ps ih =>
    intro a
    have hstep := stepLC_dom a p
    obtain ⟨hd, hall⟩ := ih (stepLC a p)
    refine ⟨domLC_trans hd hstep.1, ?_⟩
    intro q hq
    rcases List.mem_cons.mp hq with rfl | hq
    · exact domLC_trans hd hstep.2
    · exact hall q hq

theorem selectBest_fst : ∀ (l : List Path) (a b : Path),
    (l.foldl selStep (a, b)).1 = l.foldl stepBL a := by
  intro l
  induction l with
  | nil => intro a b; rfl
  | cons p ps ih => intro a b; exact ih _ _

theorem selectBest_snd : ∀ (l : List Path) (a b : Path),
    (l.foldl selStep (a, b)).2 = l.foldl stepLC b := by
  intro l
  induction l with
  | nil => intro a b; rfl
  | cons p ps ih => intro a b; exact ih _ _

/-- C4: the selected `best_light` dominates every generated path: no path has
more light, and among the paths with the same light none is cheaper. -/
theorem C4_best_light (bt : String) (ts : List String) (P : Paths)
    (h : Paths.make bt ts = Except.ok P) :
    ∀ p ∈ P.paths, p.light ≤ P.best_light.light ∧
      (p.light = P.best_light.light → P.best_light.cost ≤ p.cost) := by
  intro p hp
  obtain ⟨base, items, hb, hu, rfl⟩ := make_ok bt ts P h
  have hfold : (Paths.build base items).best_light =
      (Paths.build base items).paths.foldl stepBL
        ((Paths.build base items).paths.headD (Path.ofSteps [])) := by
    rw [(build_sel_eq base items).1]
    exact selectBest_fst _ _ _
  have hdom := (foldl_stepBL_dom (Paths.build base items).paths
    ((Paths.build base items).paths.headD (Path.ofSteps []))).2 p hp
  rw [← hfold] at hdom
  unfold domBL at hdom
  constructor
  · omega
  · omega

/-- C4 witness: a concrete collection; its lowest-light path is dominated by
the selected best-light path. -/
theorem C4_best_light_witness :
    (((Paths.make "290" ["295", "300"]).toOption.getD dummyPaths).paths.headD
        (Path.ofSteps [])).light ≤
      ((Paths.make "290" ["295", "300"]).toOption.getD dummyPaths).best_light.light ∧
    ((((Paths.make "290" ["295", "300"]).toOption.getD dummyPaths).paths.headD
        (Path.ofSteps [])).light =
      ((Paths.make "290" ["295", "300"]).toOption.getD dummyPaths).best_light.light →
      ((Paths.make "290" ["295", "300"]).toOption.getD dummyPaths).best_light.cost ≤
        (((Paths.make "290" ["295", "300"]).toOption.getD dummyPaths).paths.headD
          (Path.ofSteps [])).cost) :=
  C4_best_light "290" ["295", "300"] _ (by rfl) _ (by decide)

/-- C5: the selected `least_cost` dominates every generated path: no path is
cheaper, and among the paths with the same cost none has more light. -/
theorem C5_least_cost (bt : String) (ts : List String) (P : Paths)
    (h : Paths.make bt ts = Except.ok P) :
    ∀ p ∈ P.paths, P.least_cost.cost ≤ p.cost ∧
      (p.cost = P.least_cost.cost → p.light ≤ P.least_cost.light) := by
  intro p hp
  obtain ⟨base, items, hb, hu, rfl⟩ := make_ok bt ts P h
  have hfold : (Paths.build base items).least_cost =
      (Paths.build base items).paths.foldl stepLC
        ((Paths.build base items).paths.headD (Path.ofSteps [])) := by
    rw [(build_sel_eq base items).2]
    exact selectBest_snd _ _ _
  have hdom := (foldl_stepLC_dom (Paths.build base items).paths
    ((Paths.build base items).paths.headD (Path.ofSteps []))).2 p hp
  rw [← hfold] at hdom
  unfold domLC at hdom
  constructor
  · omega
  · omega

/-- C5 witness: a concrete collection; its first path is dominated by the
selected least-cost path. -/
theorem C5_least_cost_witness :
    ((Paths.make "290" ["295", "300"]).toOption.getD dummyPaths).least_cost.cost ≤
      (((Paths.make "290" ["295", "300"]).toOption.getD dummyPaths).paths.headD
        (Path.ofSteps [])).cost ∧
    ((((Paths.make "290" ["295", "300"]).toOption.getD dummyPaths).paths.headD
        (Path.ofSteps [])).cost =
      ((Paths.make "290" ["295", "300"]).toOption.getD dummyPaths).least_cost.cost →
      (((Paths.make "290" ["295", "300"]).toOption.getD dummyPaths).paths.headD
        (Path.ofSteps [])).light ≤
        ((Paths.make "290" ["295", "300"]).toOption.getD dummyPaths).least_cost.light) :=
  C5_least_cost "290" ["295", "300"] _ (by rfl) _ (by decide)

/-! ### C6: deduplication of candidates -/

/-- C6 counterexample: deduplication is by token string, not by light value.
With base 100 and tokens `"200"` and `"+200"` (distinct strings, equal light)
the pruned list keeps both items, so two entries share light 200. -/
theorem C6_counterexample :
    Paths.uniquify ⟨100, Quality.legendary⟩ ["200", "+200"] =
      Except.ok [⟨200, Quality.legendary⟩, ⟨200, Quality.exotic⟩] ∧
    ¬ List.Pairwise (fun a b : Item => a.light ≠ b.light)
        [(⟨200, Quality.legendary⟩ : Item), ⟨200, Quality.exotic⟩] := by
  constructor
  · rfl
  · decide

/-- C6 amended: the candidate tokens are deduplicated as strings (the token
list fed to parsing is duplicate-free), and the pruned list is a permutation of
the parses of those distinct tokens filtered to lights strictly above the base,
sorted ascending by light; items with equal light from distinct tokens all
remain. -/
theorem C6_dedup (base : Item) (tokens : List String) (l : List Item)
    (h : Paths.uniquify base tokens = Except.ok l) :
    (pySet tokens).Nodup ∧
    ∃ parsed, (pySet tokens).mapM Item.parse = Except.ok parsed ∧
      l.Perm (parsed.filter (fun it => decide (base.light < it.light))) ∧
      l.Sorted lightLe ∧ (∀ it ∈ l, base.light < it.light) := by
  obtain ⟨parsed, hm, rfl, hne⟩ := uniquify_ok base tokens l h
  refine ⟨List.nodup_dedup tokens, parsed, hm, ?_, ?_, ?_⟩
  · exact List.Perm.filter _ (List.perm_insertionSort lightLe parsed)
  · exact List.Pairwise.sublist (List.filter_sublist _) (List.sorted_insertionSort lightLe parsed)
  · intro it hit
    simp only [List.mem_filter, decide_eq_true_eq] at hit
    exact hit.2

/-- C6 witness: the concrete counterexample run, through the amended theorem. -/
theorem C6_dedup_witness :
    (pySet ["200", "+200"]).Nodup ∧
    ∃ parsed, (pySet ["200", "+200"]).mapM Item.parse = Except.ok parsed ∧
      List.Perm [(⟨200, Quality.legendary⟩ : Item), ⟨200, Quality.exotic⟩]
        (parsed.filter (fun it => decide ((100 : ℤ) < it.light))) ∧
      List.Sorted lightLe [(⟨200, Quality.legendary⟩ : Item), ⟨200, Quality.exotic⟩] ∧
      (∀ it ∈ [(⟨200, Quality.legendary⟩ : Item), ⟨200, Quality.exotic⟩],
        (100 : ℤ) < it.light) :=
  C6_dedup ⟨100, Quality.legendary⟩ ["200", "+200"]
    [⟨200, Quality.legendary⟩, ⟨200, Quality.exotic⟩] (by rfl)

/-! ### C8: the domain error -/

/-- C8 counterexample: at base 200 with candidates 150 and 190 the pruned list
is empty and an error is raised, but its message is capitalized
`"Base item is highest light level"`, not the claimed
`"base item is highest light level"`. -/
theorem C8_counterexample :
    Paths.uniquify ⟨200, Quality.legendary⟩ ["150", "190"] =
      Except.error (Err.domainError "Base item is highest light level") ∧
    Err.domainError "Base item is highest light level" ≠
      Err.domainError "base item is highest light level" := by
  constructor
  · rfl
  · decide

/-- C8 amended: when every candidate parses, construction fails with the
domain error (message `"Base item is highest light level"`, capital `B`) if and
only if no parsed candidate has light strictly greater than the base's. -/
theorem C8_domain_error (base : Item) (tokens : List String) (parsed : List Item)
    (h : (pySet tokens).mapM Item.parse = Except.ok parsed) :
    (Paths.uniquify base tokens =
        Except.error (Err.domainError "Base item is highest light level") ↔
      parsed.filter (fun it => decide (base.light < it.light)) = []) := by
  unfold Paths.uniquify
  rw [h]
  dsimp only
  have hperm : ((List.insertionSort lightLe parsed).filter
      (fun it => decide (base.light < it.light))).Perm
      (parsed.filter (fun it => decide (base.light < it.light))) :=
    List.Perm.filter _ (List.perm_insertionSort lightLe parsed)
  by_cases he : (List.insertionSort lightLe parsed).filter
      (fun it => decide (base.light < it.light)) = []
  · rw [if_pos he]
    constructor
    · intro _
      rw [he] at hperm
      exact List.Perm.eq_nil hperm.symm
    · intro _
      rfl
  · rw [if_neg he]
    constructor
    · intro hcontra
      exact Except.noConfusion hcontra
    · intro hempty
      exfalso
      apply he
      rw [hempty] at hperm
      exact List.Perm.eq_nil hperm
/-- C8 witness: the claim's own example, through the amended theorem. -/
theorem C8_domain_error_witness :
    Paths.uniquify ⟨200, Quality.legendary⟩ ["150", "190"] =
      Except.error (Err.domainError "Base item is highest light level") :=
  (C8_domain_error ⟨200, Quality.legendary⟩ ["150", "190"]
    [⟨150, Quality.legendary⟩, ⟨190, Quality.legendary⟩] (by rfl)).mpr (by rfl)

/-! ### C9: parsed light values -/

/-- C9 counterexample: `"+-5"` parses (exotic prefix, then `int("-5")`) to an
item with negative light, refuting non-negativity. -/
theorem C9_counterexample :
    Item.parse "+-5" = Except.ok ⟨-5, Quality.exotic⟩ ∧ ¬ (0 ≤ (-5 : ℤ)) := by
  constructor
  · rfl
  · decide

/-- The value `int()` returns is non-negative when the literal contains no
minus sign. -/
theorem pyIntList_nonneg (cs : List Char) (n : ℤ) (h : pyIntList cs = some n)
    (hm : ('-' : Char) ∉ cs) : 0 ≤ n := by
  unfold pyIntList at h
  have hsub : ∀ c ∈ ((cs.dropWhile isPySpace).reverse.dropWhile isPySpace).reverse, c ∈ cs := by
    intro c hc
    have h1 := List.mem_reverse.mp hc
    have h2 := (List.dropWhile_sublist _).subset h1
    have h3 := List.mem_reverse.mp h2
    exact (List.dropWhile_sublist _).subset h3
  cases hs : ((cs.dropWhile isPySpace).reverse.dropWhile isPySpace).reverse with
  | nil =>
    rw [hs] at h
    exact Option.noConfusion h
  | cons c rest =>
    rw [hs] at h
    dsimp only at h
    by_cases hp : c = '+'
    · rw [if_pos hp] at h
      obtain ⟨m, _, rfl⟩ := Option.map_eq_some'.mp h
      exact Int.natCast_nonneg m
    · by_cases hmn : c = '-'
      · exfalso
        subst hmn
        have hcmem : ('-' : Char) ∈
            ((cs.dropWhile isPySpace).reverse.dropWhile isPySpace).reverse := by
          rw [hs]
          exact List.mem_cons_self _ _
        exact hm (hsub _ hcmem)
      · rw [if_neg hp, if_neg hmn] at h
        obtain ⟨m, _, rfl⟩ := Option.map_eq_some'.mp h
        exact Int.natCast_nonneg m

/-- C9 amended: a successfully parsed token's light is exactly the integer
`int()` extracts from the numeric portion (the remainder for a `+`/`-` prefixed
token, the whole token otherwise), and that value is non-negative whenever the
numeric portion carries no minus sign — `"+-5"` shows it can be negative
otherwise. -/
theorem C9_light_value (tok : String) (it : Item) (h : Item.parse tok = Except.ok it) :
    pyIntList (numericPortion tok) = some it.light ∧
    (('-' : Char) ∉ numericPortion tok → 0 ≤ it.light) := by
  unfold Item.parse at h
  cases htl : tok.toList with
  | nil =>
    rw [htl] at h
    exact Except.noConfusion h
  | cons c rest =>
    rw [htl] at h
    dsimp only at h
    cases hpi : pyIntList (numericPortion tok) with
    | none =>
      rw [hpi] at h
      exact Except.noConfusion h
    | some n =>
      rw [hpi] at h
      injection h with h'
      subst h'
      exact ⟨rfl, fun hnm => pyIntList_nonneg _ _ hpi hnm⟩

/-- C9 witness: `"+250"` parses to light 250 via the numeric portion. -/
theorem C9_light_value_witness :
    pyIntList (numericPortion "+250") = some (250 : ℤ) ∧
    (('-' : Char) ∉ numericPortion "+250" → 0 ≤ (250 : ℤ)) :=
  C9_light_value "+250" ⟨250, Quality.exotic⟩ (by rfl)

/-! ### C7: failure modes of token parsing -/

theorem flatMap_id_of_singleton {α : Type} (f : α → List α) :
    ∀ (l : List α), (∀ c ∈ l, f c = [c]) → l.flatMap f = l := by
  intro l
  induction l with
  | nil => intro _; rfl
  | cons x xs ih =>
    intro hall
    rw [List.flatMap_cons, hall x (List.mem_cons_self _ _),
      ih (fun c hc => hall c (List.mem_cons_of_mem _ hc))]
    rfl

theorem plain_not_space (c : Char) (h1 : 33 ≤ c.toNat) : isPySpace c = false := by
  have hs1 : ¬ (c = ' ') := fun hc => absurd h1 (by subst hc; decide)
  have hs2 : ¬ (c = '\t') := fun hc => absurd h1 (by subst hc; decide)
  have hs3 : ¬ (c = '\n') := fun hc => absurd h1 (by subst hc; decide)
  have hs4 : ¬ (c = '\r') := fun hc => absurd h1 (by subst hc; decide)
  have hs5 : ¬ (c = '\x0b') := fun hc => absurd h1 (by subst hc; decide)
  have hs6 : ¬ (c = '\x0c') := fun hc => absurd h1 (by subst hc; decide)
  simp [isPySpace, hs1, hs2, hs3, hs4, hs5, hs6]

/-- On plain characters Python `repr()` only wraps in single quotes. -/
theorem pyRepr_plain (cs : List Char) (hp : plainChars cs) :
    pyRepr cs = [sqc] ++ cs ++ [sqc] := by
  unfold pyRepr
  have hq : ¬ (sqc ∈ cs ∧ dqc ∉ cs) := by
    rintro ⟨hin, -⟩
    obtain ⟨-, -, -, hne⟩ := hp sqc hin
    exact hne rfl
  rw [if_neg hq]
  show [sqc] ++ cs.flatMap (pyReprChar sqc) ++ [sqc] = [sqc] ++ cs ++ [sqc]
  have hmap : cs.flatMap (pyReprChar sqc) = cs := by
    apply flatMap_id_of_singleton
    intro c hc
    obtain ⟨h33, h126, hbs, hsq⟩ := hp c hc
    have ht : ¬ (c = '\t') := fun hc2 => absurd h33 (by subst hc2; decide)
    have hn : ¬ (c = '\n') := fun hc2 => absurd h33 (by subst hc2; decide)
    have hr : ¬ (c = '\r') := fun hc2 => absurd h33 (by subst hc2; decide)
    have h32 : ¬ (c.toNat < 32) := by omega
    have h127 : ¬ (c.toNat = 127) := by omega
    simp [pyReprChar, hbs, hsq, ht, hn, hr, h32, h127]
  rw [hmap]

theorem takeWhile_all_append {α : Type} (p : α → Bool) :
    ∀ (l₁ l₂ : List α), (∀ a ∈ l₁, p a = true) →
      List.takeWhile p (l₁ ++ l₂) = l₁ ++ List.takeWhile p l₂ := by
  intro l₁
  induction l₁ with
  | nil => intro l₂ _; rfl
  | cons x xs ih =>
    intro l₂ hall
    rw [List.cons_append, List.takeWhile_cons, hall x (List.mem_cons_self _ _)]
    rw [ih l₂ (fun a ha => hall a (List.mem_cons_of_mem _ ha))]
    rfl

/-- `split()[-1]` of a string that ends with a non-empty whitespace-free run
preceded by whitespace is exactly that run. -/
theorem lastWord_concat (pre q : List Char) (hq : q ≠ [])
    (hqn : ∀ c ∈ q, isPySpace c = false)
    (hpre0 : pre ≠ []) (hpre : isPySpace (pre.reverse.headD sqc) = true) :
    lastWord (pre ++ q) = q := by
  unfold lastWord
  rw [List.reverse_append]
  cases hqr : q.reverse with
  | nil => exact absurd (by simpa using hqr) hq
  | cons a as =>
    cases hpr : pre.reverse with
    | nil => exact absurd (by simpa using hpr) hpre0
    | cons b bs =>
      have ha : isPySpace a = false := by
        apply hqn
        apply List.mem_reverse.mp
        rw [hqr]
        exact List.mem_cons_self _ _
      have hb : isPySpace b = true := by
        rw [hpr] at hpre
        simpa using hpre
      have hall : ∀ c ∈ a :: as, (!isPySpace c) = true := by
        intro c hc
        have hcq : c ∈ q := List.mem_reverse.mp (by rw [hqr]; exact hc)
        simp [hqn c hcq]
      have hd : List.dropWhile isPySpace ((a :: as) ++ (b :: bs)) = (a :: as) ++ (b :: bs) := by
        rw [List.cons_append, List.dropWhile_cons, ha]
        simp
      have ht : List.takeWhile (fun c => !isPySpace c) (b :: bs) = [] := by
        simp [List.takeWhile_cons, hb]
      rw [hd, takeWhile_all_append _ _ _ hall, ht, List.append_nil, ← hqr,
        List.reverse_reverse]

/-- For plain numeric portions the raised message is exactly
`Invalid item '<portion>'; items must be integers.` -/
theorem parseMsg_plain (cs : List Char) (hp : plainChars cs) :
    parseMsg cs = String.mk ("Invalid item ".toList ++
      ([sqc] ++ cs ++ [sqc]) ++ "; items must be integers.".toList) := by
  unfold parseMsg intErrMsg
  rw [pyRepr_plain cs hp]
  have hlw : lastWord ("invalid literal for int() with base 10: ".toList ++
      ([sqc] ++ cs ++ [sqc])) = [sqc] ++ cs ++ [sqc] := by
    apply lastWord_concat
    · simp
    · intro c hc
      simp only [List.mem_append, List.mem_singleton] at hc
      rcases hc with (rfl | hc) | rfl
      · decide
      · obtain ⟨h33, -, -, -⟩ := hp c hc
        exact plain_not_space c h33
      · decide
    · decide
    · decide
  rw [hlw]

theorem toList_ne_nil (s : String) (h : s ≠ "") : s.toList ≠ [] := by
  intro hl
  apply h
  cases s with
  | mk data =>
    have hd : data = [] := hl
    rw [hd]

/-- The reduction of `Item.parse` on a non-empty token. -/
theorem Item_parse_eq (tok : String) (c : Char) (rest : List Char)
    (htll : tok.toList = c :: rest) :
    Item.parse tok =
      match pyIntList (numericPortion tok) with
      | some n => Except.ok ⟨n, if c = '+' then Quality.exotic
          else if c = '-' then Quality.rare else Quality.legendary⟩
      | none => Except.error (Err.parseError (parseMsg (numericPortion tok))) := by
  unfold Item.parse
  rw [htll]

/-- C7 counterexample: the empty token fails with `IndexError` (from `item[0]`),
which is neither a successful parse nor a `ParseError` — a third failure mode
the claim rules out. -/
theorem C7_counterexample :
    Item.parse "" = Except.error Err.indexError ∧
    parseOutcomeOk (Item.parse "") = false :=
  ⟨rfl, rfl⟩

/-- C7 amended: for every NON-empty token, construction returns an Item exactly
when the numeric portion is a valid Python integer literal, and otherwise
raises the ParseError; when the offending text consists of plain characters the
message is exactly `Invalid item '<portion>'; items must be integers.`, naming
the offending text.  The empty token instead raises `IndexError`. -/
theorem C7_parse_errors (tok : String) (hne : tok ≠ "") :
    ((∃ it, Item.parse tok = Except.ok it) ↔ (pyIntList (numericPortion tok)).isSome = true) ∧
    (pyIntList (numericPortion tok) = none →
      Item.parse tok = Except.error (Err.parseError (parseMsg (numericPortion tok))) ∧
      (plainChars (numericPortion tok) →
        parseMsg (numericPortion tok) = String.mk ("Invalid item ".toList ++
          ([sqc] ++ numericPortion tok ++ [sqc]) ++ "; items must be integers.".toList))) := by
  have htl := toList_ne_nil tok hne
  cases htll : tok.toList with
  | nil => exact absurd htll htl
  | cons c rest =>
    rw [Item_parse_eq tok c rest htll]
    cases hpi : pyIntList (numericPortion tok) with
    | none =>
      constructor
      · constructor
        · rintro ⟨it, hit⟩
          exact Except.noConfusion hit
        · intro hfalse
          simp at hfalse
      · intro _
        exact ⟨rfl, fun hplain => parseMsg_plain _ hplain⟩
    | some n =>
      constructor
      · constructor
        · intro _
          rfl
        · intro _
          exact ⟨_, rfl⟩
      · intro h'
        exact Option.noConfusion h'

/-- C7 witness: the token `"200x"` of the spec's example: not an integer, and
the raised message names it. -/
theorem C7_parse_errors_witness :
    ((∃ it, Item.parse "200x" = Except.ok it) ↔
      (pyIntList (numericPortion "200x")).isSome = true) ∧
    (pyIntList (numericPortion "200x") = none →
      Item.parse "200x" = Except.error (Err.parseError (parseMsg (numericPortion "200x"))) ∧
      (plainChars (numericPortion "200x") →
        parseMsg (numericPortion "200x") = String.mk ("Invalid item ".toList ++
          ([sqc] ++ numericPortion "200x" ++ [sqc]) ++ "; items must be integers.".toList))) :=
  C7_parse_errors "200x" (by decide)

end Infusion
